import Mathlib

/-!
Shallow embedding of the lambda-calculus interpreter in `src/main.py`
(scanner, recursive-descent parser, environment-based evaluator, printer),
with theorems settling the specification claims about it.
-/

namespace LambdaCalc

/-- Token kinds of the scanner, as in the source `Token` enum. -/
inductive Token where
  | LAMBDA
  | DOT
  | LEFT_PAREN
  | RIGHT_PAREN
  | ID
deriving DecidableEq, Repr

/-- a token as the scanner produces it: a kind paired with a payload string, the
payload being empty except for `ID`, which carries the scanned character. -/
abbrev Tok := Token × String

/-- scanChar classifies one input character exactly as the `match c` in the source
`scan` loop does: a space produces no token, the glyph `𝛌` (U+1D6CC) and the
backslash produce a `LAMBDA` token, `.` `(` `)` their respective tokens, and any
other character an `ID` token carrying that character. -/
def scanChar (c : Char) : Option Tok :=
  match c with
  | ' ' => none
  | '𝛌' | '\\' => some (Token.LAMBDA, "")
  | '.' => some (Token.DOT, "")
  | '(' => some (Token.LEFT_PAREN, "")
  | ')' => some (Token.RIGHT_PAREN, "")
  | c => some (Token.ID, String.singleton c)

/-- scan embeds the source `scan(text)`: the for-loop appends, for each character in
order, the zero or one tokens `scanChar` yields, i.e. a `filterMap` over the text. -/
def scan (text : String) : List Tok :=
  text.toList.filterMap scanChar

/-- PTree is a value the source parser can hand back: a term tuple, possibly with
Python `None` (`noneV`) in a child position, since `term()` returns `None` once the
cursor has run off the end of the token list. an `ABS` node stores as parameter the
tree that `var()` built. -/
inductive PTree where
  | noneV
  | VAR (name : String)
  | ABS (param : PTree) (body : PTree)
  | APP (fn : PTree) (arg : PTree)
deriving DecidableEq, Repr

/-- PRes is the observable outcome of a source parser call: a value, a Python
`IndexError` from an out-of-range `tokens[i]`, a genuine infinite loop (`spin`: the
`while` loop of `term()` meets a token kind with no matching case, leaves the cursor
unchanged and re-tests the same token forever), or exhaustion of the step budget of
the embedding (`fuelOut`, an artifact of the embedding, never a behavior of the
source). -/
inductive PRes (α : Type) where
  | ok (val : α)
  | indexError
  | spin
  | fuelOut
deriving DecidableEq, Repr

/-- varP embeds the source `var()`: it reads `tokens[i][1]` (an `IndexError` when `i`
is out of range), builds a `VAR` node from the payload whatever the token kind, and
advances the cursor by one. -/
def varP (tokens : List Tok) (i : Nat) : PRes (PTree × Nat) :=
  if h : i < tokens.length then
    .ok (.VAR (tokens.get ⟨i, h⟩).2, i + 1)
  else
    .indexError

/-- termP embeds the source `term()`, with `abs()` inlined at its single call site and
the cursor `i` passed explicitly. each iteration of the source `while` loop either
returns (`ID` and `LEFT_PAREN` cases) or matches no case (`LAMBDA`, `DOT`,
`RIGHT_PAREN`), which re-tests the same token with `i` unchanged — a real infinite
loop, embedded as `spin`. falling out of the loop (`i` past the end) returns Python
`None`, embedded as `noneV`. in the abstraction branch the source consumes the
`LEFT_PAREN` and the `LAMBDA` (cursor `i + 2`), reads the parameter with `var()`,
skips the `DOT` unchecked, parses the body, and skips the closing `RIGHT_PAREN`
unchecked; in the application branch it consumes the `LEFT_PAREN`, parses two
consecutive terms, and skips the closing `RIGHT_PAREN` unchecked. `fuel` only bounds
the recursion of the embedding; the recursive calls mirror the source exactly. -/
def termP : Nat → List Tok → Nat → PRes (PTree × Nat)
  | 0, _, _ => .fuelOut
  | fuel + 1, tokens, i =>
    if h : i < tokens.length then
      match (tokens.get ⟨i, h⟩).1 with
      | Token.ID => varP tokens i
      | Token.LEFT_PAREN =>
        if h2 : i + 1 < tokens.length then
          if (tokens.get ⟨i + 1, h2⟩).1 = Token.LAMBDA then
            match varP tokens (i + 2) with
            | .ok (v, i3) =>
              match termP fuel tokens (i3 + 1) with
              | .ok (b, j) => .ok (.ABS v b, j + 1)
              | r => r
            | r => r
          else
            match termP fuel tokens (i + 1) with
            | .ok (r1, j1) =>
              match termP fuel tokens j1 with
              | .ok (r2, j2) => .ok (.APP r1 r2, j2 + 1)
              | r => r
            | r => r
        else
          .indexError
      | _ => .spin
    else
      .ok (.noneV, i)

/-- parse embeds the source `parse(tokens)`: run `term()` from cursor 0 and return
its tree, discarding the final cursor (trailing tokens are ignored). the fuel
`2 * tokens.length + 4` is an embedding artifact; on every input settled below the
result is `ok` or `spin`, never `fuelOut`, so the budget is not binding there. -/
def parse (tokens : List Tok) : PRes PTree :=
  match termP (2 * tokens.length + 4) tokens 0 with
  | .ok (t, _) => .ok t
  | .indexError => .indexError
  | .spin => .spin
  | .fuelOut => .fuelOut

/-- Term is the evaluator's AST. in the source an `ABS` node stores its parameter as
the `Var` tuple `(Term.VAR, name)` built by the parser; that tuple is determined by
`name`, which is what is stored here, and environment frames keyed by the tuple in
the source are correspondingly keyed by `name`. -/
inductive Term where
  | VAR (name : String)
  | ABS (param : String) (body : Term)
  | APP (fn : Term) (arg : Term)
deriving DecidableEq, Repr

/-- Env embeds the evaluator's environment: the source threads a list of
single-binding dicts `{param: value}`, embedded as a list of (name, value) pairs. -/
abbrev Env := List (String × Term)

/-- find embeds the source `find(env, var)`: scan the frames from the most recently
appended to the oldest and return the first binding of `v`; the source's
`(False, '')` not-found result is embedded as `none`. -/
def find (env : Env) (v : String) : Option Term :=
  (env.reverse.find? (fun d => d.1 == v)).map (fun d => d.2)

/-- interpret embeds the source `interpret(ast, env)`: a variable is looked up and
returned unchanged when unbound; an abstraction is rebuilt with its body interpreted
under one extra frame binding the parameter to itself; an application whose function
position is syntactically an `ABS` is reduced by interpreting that body under one
extra frame binding the parameter to the already-interpreted argument; any other
application is returned unchanged. -/
def interpret : Term → Env → Term
  | .VAR name, env =>
    match find env name with
    | some res => res
    | none => .VAR name
  | .ABS p b, env => .ABS p (interpret b (env ++ [(p, .VAR p)]))
  | .APP (.ABS p body) a, env => interpret body (env ++ [(p, interpret a env)])
  | .APP f a, _ => .APP f a

/-- textify embeds the source `textify(term)`; it prints with the same `𝛌` glyph
(U+1D6CC) the scanner reads, not the Greek letter `λ` (U+03BB). -/
def textify : Term → String
  | .VAR name => name
  | .ABS p b => "(𝛌" ++ p ++ "." ++ textify b ++ ")"
  | .APP f a => "(" ++ textify f ++ textify a ++ ")"

/-- toTerm reads a parser tree as an evaluator AST: it succeeds exactly when the tree
is a proper term (no `None` child and every `ABS` parameter a `VAR` node), which is
the case for every successful parse appearing below; on such trees the evaluator
runs directly on the parser's output, as the source pipeline does. -/
def toTerm : PTree → Option Term
  | .noneV => none
  | .VAR n => some (.VAR n)
  | .ABS (.VAR n) b => (toTerm b).map (fun tb => .ABS n tb)
  | .ABS _ _ => none
  | .APP f a =>
    match toTerm f, toTerm a with
    | some tf, some ta => some (.APP tf ta)
    | _, _ => none

/-- run is the per-line pipeline `textify(interpret(parse(scan(text)), []))` of the
source REPL, returning `none` whenever the parse does not come back as a proper
term value. -/
def run (text : String) : Option String :=
  match parse (scan text) with
  | .ok pt => (toTerm pt).map (fun t => textify (interpret t []))
  | _ => none

/-- height of an AST: one plus the height of the deepest child; the source recursion
never nests more `interpret` calls than this. -/
def height : Term → Nat
  | .VAR _ => 1
  | .ABS _ b => 1 + height b
  | .APP f a => 1 + max (height f) (height a)

/-- interpretF is `interpret` with an explicit bound on the recursion depth: each
recursive call of the source costs one unit and `none` means the bound was hit, so a
`some` result certifies that the source recursion stays within the given depth and
returns normally. -/
def interpretF : Nat → Term → Env → Option Term
  | 0, _, _ => none
  | _ + 1, .VAR name, env =>
    some (match find env name with
          | some res => res
          | none => .VAR name)
  | fuel + 1, .ABS p b, env =>
    (interpretF fuel b (env ++ [(p, .VAR p)])).map (fun tb => .ABS p tb)
  | fuel + 1, .APP (.ABS p body) a, env =>
    match interpretF fuel a env with
    | some av => interpretF fuel body (env ++ [(p, av)])
    | none => none
  | _ + 1, .APP f a, _ => some (.APP f a)

/-- isABS tests whether a term is syntactically an abstraction — the test the
evaluator applies to the function position of an application. -/
def isABS : Term → Bool
  | .ABS _ _ => true
  | _ => false

/-- noHeadRedex holds when no application whose function position is a literal
abstraction is reachable from the root by descending only through abstraction
bodies — exactly the positions a further `interpret` pass inspects. -/
def noHeadRedex : Term → Prop
  | .VAR _ => True
  | .ABS _ b => noHeadRedex b
  | .APP f _ => isABS f = false

end LambdaCalc

namespace LambdaCalc

/-- a successful lookup returns a binding that is present in the environment. -/
theorem find_eq_some {env : Env} {v : String} {t : Term} (h : find env v = some t) :
    (v, t) ∈ env := by
  unfold find at h
  cases hf : env.reverse.find? (fun d => d.1 == v) with
  | none => rw [hf] at h; simp at h
  | some d =>
    rw [hf] at h
    simp only [Option.map] at h
    have hd := List.find?_some hf
    have hmem : d ∈ env.reverse := List.mem_of_find?_eq_some hf
    rw [List.mem_reverse] at hmem
    have h1 : d.1 = v := by simpa using hd
    have h2 : d.2 = t := by simpa using h
    have : d = (v, t) := by
      cases d with
      | mk a b => simp_all
    rw [this] at hmem
    exact hmem

/-- a name bound in no frame fails to be found. -/
theorem find_eq_none {env : Env} {v : String} (h : ∀ fr ∈ env, fr.1 ≠ v) :
    find env v = none := by
  unfold find
  have : env.reverse.find? (fun d => d.1 == v) = none := by
    rw [List.find?_eq_none]
    intro x hx
    simp only [beq_iff_eq]
    exact fun hxv => h x (List.mem_reverse.mp hx) (by simpa using hxv)
  rw [this]
  rfl

/-- interpreting with an environment whose values all satisfy `noHeadRedex` yields a
term satisfying `noHeadRedex`: the evaluator leaves no application headed by a
literal abstraction at any position a further pass would inspect. -/
theorem noHeadRedex_interpret (t : Term) (env : Env) :
    (∀ fr ∈ env, noHeadRedex fr.2) → noHeadRedex (interpret t env) := by
  induction t, env using interpret.induct with
  | case1 name env res hf =>
    intro henv
    simp only [interpret, hf]
    exact henv (name, res) (find_eq_some hf)
  | case2 name env hf =>
    intro _
    simp [interpret, hf, noHeadRedex]
  | case3 p b env ih =>
    intro henv
    simp only [interpret, noHeadRedex]
    apply ih
    intro fr hfr
    rcases List.mem_append.mp hfr with hl | hr
    · exact henv fr hl
    · simp at hr
      rw [hr]
      simp [noHeadRedex]
  | case4 p body a env ih1 ih2 =>
    intro henv
    simp only [interpret]
    apply ih2
    intro fr hfr
    rcases List.mem_append.mp hfr with hl | hr
    · exact henv fr hl
    · simp at hr
      rw [hr]
      exact ih1 henv
  | case5 f a env hne =>
    intro henv
    have hi : interpret (Term.APP f a) env = Term.APP f a := by
      cases f with
      | VAR n => simp [interpret]
      | ABS p b => exact (hne p b rfl).elim
      | APP g c => simp [interpret]
    rw [hi]
    cases f with
    | VAR n => simp [noHeadRedex, isABS]
    | ABS p b => exact (hne p b rfl).elim
    | APP g c => simp [noHeadRedex, isABS]

/-- on a term with no head redex, interpreting under an environment made only of
self-bindings changes nothing. -/
theorem interpret_id_of_self_env (t : Term) :
    ∀ (env : Env), noHeadRedex t → (∀ fr ∈ env, fr.2 = Term.VAR fr.1) →
      interpret t env = t := by
  induction t with
  | VAR name =>
    intro env _ henv
    cases hf : find env name with
    | none => simp [interpret, hf]
    | some res =>
      have hmem := find_eq_some hf
      have := henv (name, res) hmem
      simp at this
      simp [interpret, hf, this]
  | ABS p b ih =>
    intro env ht henv
    simp only [interpret]
    rw [ih (env ++ [(p, Term.VAR p)]) ht]
    intro fr hfr
    rcases List.mem_append.mp hfr with hl | hr
    · exact henv fr hl
    · simp at hr
      rw [hr]
  | APP f a ihf iha =>
    intro env ht henv
    have hf : isABS f = false := ht
    cases f with
    | VAR n => simp [interpret]
    | ABS p b => simp [isABS] at hf
    | APP g c => simp [interpret]

/-- scanChar drops exactly the space character and nothing else. -/
theorem scanChar_eq_none_iff (c : Char) : scanChar c = none ↔ c = ' ' := by
  unfold scanChar
  split <;> simp_all

/-- C1 counterexample: the claim's pipeline input and expected output are written
with the Greek letter `λ` (U+03BB), which the scanner classifies as an ordinary
identifier, not as the lambda glyph `𝛌` (U+1D6CC) matched by the source; the parser
then reads the text as nested applications and the pipeline prints
`((λx)(λy))`, not `(λy.z)`. -/
theorem run_greek_K_example :
    run "((λx.(λy.x))z)" = some "((λx)(λy))"
    ∧ run "((λx.(λy.x))z)" ≠ some "(λy.z)" := by
  constructor <;> decide

/-- C1 amended: with the glyph the source actually scans and prints (`𝛌`, U+1D6CC)
in place of `λ`, the full pipeline on the K-combinator example yields the printed
result of the commented example in the reference:
`textify(interpret(parse(scan("((𝛌x.(𝛌y.x))z)")), []))` is `"(𝛌y.z)"`. -/
theorem run_K_combinator_glyph : run "((𝛌x.(𝛌y.x))z)" = some "(𝛌y.z)" := by decide

/-- C2: interpret of an `App` node reduces only when the function position is
syntactically a literal `Abs` node, binding the parameter to the eagerly evaluated
argument `interpret(argument, env)`; when the function position is not a literal
`Abs`, the whole `App` node is returned unchanged — in particular the pipeline on
`"(xy)"` prints `"(xy)"`. -/
theorem interpret_app_literal_abs_only (p : String) (b a f : Term) (env : Env)
    (hf : isABS f = false) :
    interpret (Term.APP (Term.ABS p b) a) env
      = interpret b (env ++ [(p, interpret a env)])
    ∧ interpret (Term.APP f a) env = Term.APP f a
    ∧ run "(xy)" = some "(xy)" := by
  refine ⟨rfl, ?_, by decide⟩
  cases f with
  | VAR n => rfl
  | ABS p2 b2 => simp [isABS] at hf
  | APP g c => rfl

/-- C2 witness: the redex case, the stuck case at a `Var` function, and the pipeline
example, instantiated at concrete terms. -/
theorem interpret_app_literal_abs_only_witness :
    interpret (Term.APP (Term.ABS "x" (Term.VAR "x")) (Term.VAR "y")) []
      = interpret (Term.VAR "x") ([] ++ [("x", interpret (Term.VAR "y") [])])
    ∧ interpret (Term.APP (Term.VAR "x") (Term.VAR "y")) []
      = Term.APP (Term.VAR "x") (Term.VAR "y")
    ∧ run "(xy)" = some "(xy)" :=
  interpret_app_literal_abs_only "x" (Term.VAR "x") (Term.VAR "y") (Term.VAR "x") [] rfl

/-- C3: interpreting an `Abs` node descends into the body under a new self-binding
frame — `interpret(Abs(p, b), env)` is `Abs(p, interpret(b, env + [{p: p}]))` — and
consequently interpreting `(λx.(λx.x))` in the empty environment returns the same
term unchanged. -/
theorem interpret_abs_self_frame (p : String) (b : Term) (env : Env) :
    interpret (Term.ABS p b) env = Term.ABS p (interpret b (env ++ [(p, Term.VAR p)]))
    ∧ interpret (Term.ABS "x" (Term.ABS "x" (Term.VAR "x"))) []
      = Term.ABS "x" (Term.ABS "x" (Term.VAR "x")) :=
  ⟨rfl, by decide⟩

/-- C4: a `Var` node whose name is bound in no frame of the environment is returned
unchanged by interpret, with no error raised; in particular the pipeline on `"x"`
prints `"x"`. -/
theorem interpret_unbound_var_passthrough (name : String) (env : Env)
    (h : ∀ fr ∈ env, fr.1 ≠ name) :
    interpret (Term.VAR name) env = Term.VAR name ∧ run "x" = some "x" := by
  refine ⟨?_, by decide⟩
  have hn : find env name = none := find_eq_none h
  simp [interpret, hn]

/-- C4 witness: the variable `x` is unbound in an environment binding only `y`, and
is passed through unchanged. -/
theorem interpret_unbound_var_passthrough_witness :
    interpret (Term.VAR "x") [("y", Term.VAR "z")] = Term.VAR "x"
    ∧ run "x" = some "x" :=
  interpret_unbound_var_passthrough "x" [("y", Term.VAR "z")] (by decide)

/-- C5 counterexample: the scanner does not map the Greek letter `λ` (U+03BB) to a
`Lambda` token; it falls through to the identifier case. -/
theorem scan_greek_lambda_id_token :
    scan "λ" = [(Token.ID, "λ")] ∧ scan "λ" ≠ [(Token.LAMBDA, "")] := by
  constructor <;> decide

/-- C5 amended: for every input text, scan maps each occurrence of the glyph `𝛌`
(U+1D6CC, the character the source matches — not the Greek letter `λ`, U+03BB) and
each occurrence of the ASCII backslash to a `Lambda` token with empty payload. -/
theorem scan_lambda_glyph_tokens (s t : String) (c : Char)
    (hc : c = '𝛌' ∨ c = '\\') :
    scan (s ++ String.singleton c ++ t) = scan s ++ [(Token.LAMBDA, "")] ++ scan t := by
  unfold scan
  have h1 : (s ++ String.singleton c ++ t).toList = s.toList ++ [c] ++ t.toList := by
    simp [String.toList, String.singleton]
  rw [h1, List.filterMap_append, List.filterMap_append]
  rcases hc with hc | hc <;> subst hc <;> rfl

/-- C5 witness: a `𝛌` between `(` and `x.x)` scans to one `Lambda` token in place. -/
theorem scan_lambda_glyph_tokens_witness :
    scan ("(" ++ String.singleton '𝛌' ++ "x.x)")
      = scan "(" ++ [(Token.LAMBDA, "")] ++ scan "x.x)" :=
  scan_lambda_glyph_tokens "(" "x.x)" '𝛌' (Or.inl rfl)

/-- C6: interpret is idempotent on its own outputs — for every term in the image of
`interpret(·, [])`, interpreting again in the empty environment leaves the textified
result unchanged. -/
theorem interpret_idempotent_on_image (s : Term) :
    textify (interpret (interpret s []) []) = textify (interpret s []) := by
  have h1 : noHeadRedex (interpret s []) := noHeadRedex_interpret s [] (by simp)
  rw [interpret_id_of_self_env (interpret s []) [] h1 (by simp)]

/-- C7: on every well-formed AST and every environment, interpret terminates with a
value and raises no error, and the recursion depth is bounded by the height of the
AST: the depth-bounded evaluator already succeeds, and agrees with `interpret`,
whenever its budget is at least the AST's height. -/
theorem interpret_terminates_depth_bounded (fuel : Nat) :
    ∀ (t : Term) (env : Env), height t ≤ fuel →
      interpretF fuel t env = some (interpret t env) := by
  induction fuel with
  | zero =>
    intro t env h
    cases t <;> simp [height] at h
  | succ fuel ih =>
    intro t env h
    match t with
    | .VAR name => rfl
    | .ABS p b =>
      have hb : height b ≤ fuel := by simp [height] at h; omega
      simp [interpretF, interpret, ih b _ hb]
    | .APP (.ABS p body) a =>
      have ha : height a ≤ fuel := by simp [height] at h; omega
      have hb : height body ≤ fuel := by simp [height] at h; omega
      simp [interpretF, interpret, ih a env ha, ih body _ hb]
    | .APP (.VAR n) a => rfl
    | .APP (.APP g c) a => rfl

/-- C7 witness: an identity-application redex of height 3 is fully evaluated within
a recursion budget of 3. -/
theorem interpret_terminates_depth_bounded_witness :
    height (Term.APP (Term.ABS "x" (Term.VAR "x")) (Term.VAR "y")) ≤ 3
    ∧ interpretF 3 (Term.APP (Term.ABS "x" (Term.VAR "x")) (Term.VAR "y")) []
      = some (interpret (Term.APP (Term.ABS "x" (Term.VAR "x")) (Term.VAR "y")) []) :=
  ⟨by decide,
   interpret_terminates_depth_bounded 3
     (Term.APP (Term.ABS "x" (Term.VAR "x")) (Term.VAR "y")) [] (by decide)⟩

/-- C8: for every input text, the number of tokens scan returns equals the number of
non-space characters of the text: the space character is dropped silently and every
other character yields exactly one token. -/
theorem scan_length_nonspace (text : String) :
    (scan text).length = (text.toList.filter (fun c => c ≠ ' ')).length := by
  unfold scan
  induction text.toList with
  | nil => rfl
  | cons c cs ih =>
    rw [List.filterMap_cons, List.filter_cons]
    cases hsc : scanChar c with
    | none =>
      have hc : c = ' ' := (scanChar_eq_none_iff c).mp hsc
      simp [hc, ih]
    | some tk =>
      have hc : ¬ c = ' ' := by
        intro hsp
        have hn : scanChar c = none := (scanChar_eq_none_iff c).mpr hsp
        rw [hn] at hsc
        exact Option.noConfusion hsc
      simp [hc, ih]

/-- C9 counterexample: on the token sequence of `")"` the reference parser raises no
structured `ParseError` and returns nothing — the `while` loop of `term()` meets the
`RIGHT_PAREN` token, which matches no case, leaves the cursor unchanged and re-tests
the same token forever, so `parse` diverges (`spin`). -/
theorem parse_rparen_spin : parse (scan ")") = PRes.spin := by decide

/-- C9 amended: applying parse to `scan(")")` makes the reference diverge rather
than raise: for every positive step budget, `term()` from cursor 0 lands in the
no-matching-case infinite loop on the unmatched `RIGHT_PAREN`. a reimplementation,
not the reference, is what the spec obliges to raise a `ParseError` there. -/
theorem parse_rparen_spins_forever (fuel : Nat) :
    termP (fuel + 1) (scan ")") 0 = PRes.spin := rfl

/-- C10: applied to the empty token sequence — which scanning an empty text yields —
parse terminates and returns Python `None` (no term and no structured error), so the
failure for empty input surfaces only later in the pipeline, where the embedded
pipeline yields no printed string. -/
theorem parse_empty_returns_none :
    parse ([] : List Tok) = PRes.ok PTree.noneV
    ∧ scan "" = []
    ∧ (∀ fuel : Nat, termP (fuel + 1) ([] : List Tok) 0 = PRes.ok (PTree.noneV, 0))
    ∧ run "" = none :=
  ⟨by decide, rfl, fun _ => rfl, by decide⟩

end LambdaCalc
